import Mathlib

/-!
Verification of the geometry core of the Kml-polygon-Area repository
(`kml_area.py`): longitude unwrapping (`_unwrap_lons`), spherical polygon
area (`spherical_polygon_area_sq_m`) and spherical centroid
(`centroid_latlon`).  The Python floats are modelled by real numbers; the
list-processing structure of the code is kept verbatim.
-/

namespace KmlArea

open scoped Classical

noncomputable section

/-- Earth radius in meters, the constant `EARTH_RADIUS = 6371008.8` of the source. -/
def EARTH_RADIUS : ℝ := 6371008.8

/-- Degrees to radians, `math.radians`. -/
def toRad (d : ℝ) : ℝ := d * (Real.pi / 180)

/-- Radians to degrees, `math.degrees`. -/
def toDeg (r : ℝ) : ℝ := r * (180 / Real.pi)

/-- Two-argument arctangent, `math.atan2 y x` (range (-pi, pi], 0 at the origin). -/
def atan2 (y x : ℝ) : ℝ :=
  if 0 < x then Real.arctan (y / x)
  else if x < 0 then
    (if 0 ≤ y then Real.arctan (y / x) + Real.pi else Real.arctan (y / x) - Real.pi)
  else
    (if 0 < y then Real.pi / 2 else if y < 0 then -(Real.pi / 2) else 0)

/-- One step of the dateline adjustment in `_unwrap_lons`: the raw delta `d`
between consecutive longitudes, with 360 subtracted when `d > 180` and 360
added when `d < -180`. -/
def adjDelta (d : ℝ) : ℝ :=
  if d > 180 then d - 360 else if d < -180 then d + 360 else d

/-- The loop of `_unwrap_lons` (lines 24-31): `prev` is the last element
appended to `unwrapped`, `prevLon` the previous original longitude, `ls`
the remaining original longitudes. -/
def unwrapAux (prev prevLon : ℝ) : List ℝ → List ℝ
  | [] => []
  | l :: ls =>
      (prev + adjDelta (l - prevLon)) :: unwrapAux (prev + adjDelta (l - prevLon)) l ls

/-- `_unwrap_lons` of the source, including the final rebasing pass
`result = [base + (u - unwrapped[0]) for u in unwrapped]` with
`base = lons[0]`.  The source indexes `lons[0]`, so the empty list is outside
its contract; we return `[]` there. -/
def unwrap_lons : List ℝ → List ℝ
  | [] => []
  | l :: ls => (l :: unwrapAux l l ls).map fun u => l + (u - l)

/-- The summation loop of `spherical_polygon_area_sq_m` (lines 61-65): sum of
`(lon2 - lon1) * (sin lat1 + sin lat2)` over consecutive index pairs of the
two (already radian-valued) lists. -/
def crossSum : List ℝ → List ℝ → ℝ
  | la1 :: la2 :: las, lo1 :: lo2 :: los =>
      (lo2 - lo1) * (Real.sin la1 + Real.sin la2) + crossSum (la2 :: las) (lo2 :: los)
  | _, _ => 0

/-- The closing step of `spherical_polygon_area_sq_m` (lines 48-50): append the
first latitude and longitude when the first point differs from the last. -/
def closeRing (lats lons : List ℝ) : List ℝ × List ℝ :=
  if lats.head? = lats.getLast? ∧ lons.head? = lons.getLast? then (lats, lons)
  else (lats ++ [lats.headI], lons ++ [lons.headI])

/-- `spherical_polygon_area_sq_m` of the source: 0 for fewer than 3 points,
otherwise close the ring, unwrap the longitudes, convert to radians, sum the
line-integral terms, and return `0.5 * |total| * EARTH_RADIUS ^ 2`. -/
def spherical_polygon_area_sq_m (lats_deg lons_deg : List ℝ) : ℝ :=
  if lats_deg.length < 3 then 0
  else
    0.5 * |crossSum ((closeRing lats_deg lons_deg).1.map toRad)
        ((unwrap_lons (closeRing lats_deg lons_deg).2).map toRad)| * EARTH_RADIUS ^ 2

/-- `centroid_latlon` of the source: `(0, 0)` for an empty latitude list,
otherwise average the unit-sphere Cartesian coordinates of the vertices
(divided by `len(lats_deg)`) and convert back with `atan2` and
`hypot x y = sqrt (x^2 + y^2)`. -/
def centroid_latlon (lats_deg lons_deg : List ℝ) : ℝ × ℝ :=
  match lats_deg with
  | [] => (0, 0)
  | _ :: _ =>
    let pts := lats_deg.zip lons_deg
    let n : ℝ := (lats_deg.length : ℝ)
    let x := ((pts.map fun p => Real.cos (toRad p.1) * Real.cos (toRad p.2)).sum) / n
    let y := ((pts.map fun p => Real.cos (toRad p.1) * Real.sin (toRad p.2)).sum) / n
    let z := ((pts.map fun p => Real.sin (toRad p.1)).sum) / n
    (toDeg (atan2 z (Real.sqrt (x ^ 2 + y ^ 2))), toDeg (atan2 y x))

/-- Sum stated the way claim C1 words it: term
`(lon2 - lon1) * (sin lat2 + sin lat1)` over consecutive pairs. -/
def specRingSum : List ℝ → List ℝ → ℝ
  | la1 :: la2 :: las, lo1 :: lo2 :: los =>
      (lo2 - lo1) * (Real.sin la2 + Real.sin la1) + specRingSum (la2 :: las) (lo2 :: los)
  | _, _ => 0

/-- The area formula exactly as claim C1 words it: close the ring by appending
the first point when first and last differ, unwrap the longitudes, take the
radian line-integral sum, and return half its absolute value times
`6371008.8 ^ 2`. -/
def areaSpecFormula (lats_deg lons_deg : List ℝ) : ℝ :=
  let closed :=
    if lats_deg.head? = lats_deg.getLast? ∧ lons_deg.head? = lons_deg.getLast? then
      (lats_deg, lons_deg)
    else (lats_deg ++ [lats_deg.headI], lons_deg ++ [lons_deg.headI])
  0.5 * |specRingSum (closed.1.map toRad) ((unwrap_lons closed.2).map toRad)| * 6371008.8 ^ 2

/-- The centroid formula exactly as claim C7 words it: Cartesian coordinates of
each vertex on the unit sphere, arithmetic average over all vertices as given,
then `atan2`-based conversion back to degrees. -/
def centroidSpecFormula (lats_deg lons_deg : List ℝ) : ℝ × ℝ :=
  let pts := lats_deg.zip lons_deg
  let n : ℝ := (pts.length : ℝ)
  let xbar := ((pts.map fun p => Real.cos (toRad p.1) * Real.cos (toRad p.2)).sum) / n
  let ybar := ((pts.map fun p => Real.cos (toRad p.1) * Real.sin (toRad p.2)).sum) / n
  let zbar := ((pts.map fun p => Real.sin (toRad p.1)).sum) / n
  (toDeg (atan2 zbar (Real.sqrt (xbar ^ 2 + ybar ^ 2))), toDeg (atan2 ybar xbar))

/-- Contribution of one edge of the closed ring to the line-integral sum,
expressed on (lat, lon) points in degrees: after unwrapping, the radian
longitude delta of the edge is `toRad (adjDelta (lon q - lon p))`. -/
def edgeTerm (p q : ℝ × ℝ) : ℝ :=
  toRad (adjDelta (q.2 - p.2)) * (Real.sin (toRad p.1) + Real.sin (toRad q.1))

/-- The line-integral sum over a list of (lat, lon) points in degrees. -/
def adjSum : List (ℝ × ℝ) → ℝ
  | p :: q :: ps => edgeTerm p q + adjSum (q :: ps)
  | _ => 0

/-- Ring closing on zipped (lat, lon) points, mirroring `closeRing`. -/
def closeP (ps : List (ℝ × ℝ)) : List (ℝ × ℝ) :=
  if ps.head? = ps.getLast? then ps else ps ++ [ps.headI]

/-- The area function restated on zipped (lat, lon) points; proved equal to
`spherical_polygon_area_sq_m` on equal-length inputs below. -/
def areaP (ps : List (ℝ × ℝ)) : ℝ :=
  if ps.length < 3 then 0 else 0.5 * |adjSum (closeP ps)| * EARTH_RADIUS ^ 2

/-- Telescoping potential for rings visiting at most the two points `p`, `q`. -/
def phiPQ (p q x : ℝ × ℝ) : ℝ := if x = p then 0 else edgeTerm p q

end

/-- The rebasing pass of `_unwrap_lons` is the identity over the reals:
`base + (u - unwrapped[0]) = u` because `unwrapped[0] = lons[0] = base`. -/
theorem unwrap_lons_cons (l : ℝ) (ls : List ℝ) :
    unwrap_lons (l :: ls) = l :: unwrapAux l l ls := by
  simp only [unwrap_lons]
  exact List.map_id'' (fun x => by ring) _

theorem length_unwrapAux : ∀ (ls : List ℝ) (prev o : ℝ),
    (unwrapAux prev o ls).length = ls.length := by
  intro ls
  induction ls with
  | nil => intro prev o; rfl
  | cons l ls ih => intro prev o; simp [unwrapAux, ih]

/-- After unwrapping and radian conversion, the summation loop computes the
edge-term sum of the original (lat, lon) points: each unwrapped longitude
delta is `adjDelta` of the original delta, and `toRad` is linear. -/
theorem crossSum_unwrapAux : ∀ (os as : List ℝ) (a o prev : ℝ),
    as.length = os.length →
    crossSum ((a :: as).map toRad) ((prev :: unwrapAux prev o os).map toRad)
      = adjSum ((a, o) :: as.zip os) := by
  intro os
  induction os with
  | nil =>
      intro as a o prev h
      have : as = [] := List.eq_nil_of_length_eq_zero h
      subst this
      simp [crossSum, adjSum, unwrapAux]
  | cons o2 os ih =>
      intro as a o prev h
      match as with
      | [] => simp at h
      | a2 :: as =>
        have h' : as.length = os.length := by simpa using h
        have hrec := ih as a2 o2 (prev + adjDelta (o2 - o)) h'
        simp only [List.map_cons] at hrec ⊢
        simp only [unwrapAux, List.map_cons, crossSum, List.zip_cons_cons, adjSum, edgeTerm]
        rw [hrec]
        simp only [List.zip_cons_cons, adjSum, edgeTerm, toRad, List.zip]
        ring

/-- Combination of the rebasing identity and `crossSum_unwrapAux`. -/
theorem crossSum_unwrap (a : ℝ) (as : List ℝ) (b : ℝ) (bs : List ℝ)
    (h : as.length = bs.length) :
    crossSum ((a :: as).map toRad) ((unwrap_lons (b :: bs)).map toRad)
      = adjSum ((a :: as).zip (b :: bs)) := by
  rw [unwrap_lons_cons, List.zip_cons_cons]
  exact crossSum_unwrapAux bs as a b b h

theorem getLast?_cons_eq (a : ℝ) (l : List ℝ) :
    (a :: l).getLast? = some (l.getLastD a) := by
  induction l generalizing a with
  | nil => rfl
  | cons b l ih => rw [List.getLast?_cons_cons, ih b, List.getLastD_cons]

theorem getLast?_cons_eqP (a : ℝ × ℝ) (l : List (ℝ × ℝ)) :
    (a :: l).getLast? = some (l.getLastD a) := by
  induction l generalizing a with
  | nil => rfl
  | cons b l ih => rw [List.getLast?_cons_cons, ih b, List.getLastD_cons]

theorem zip_getLast?_cons : ∀ (l1 l2 : List ℝ) (a b : ℝ), l1.length = l2.length →
    ((a :: l1).zip (b :: l2)).getLast? = some (l1.getLastD a, l2.getLastD b) := by
  intro l1
  induction l1 with
  | nil =>
      intro l2 a b h
      have : l2 = [] := List.eq_nil_of_length_eq_zero h.symm
      subst this
      rfl
  | cons c l1 ih =>
      intro l2 a b h
      match l2 with
      | [] => simp at h
      | d :: l2 =>
        have h' : l1.length = l2.length := by simpa using h
        rw [List.zip_cons_cons, List.zip_cons_cons, List.getLast?_cons_cons,
          ← List.zip_cons_cons, ih l2 c d h', List.getLastD_cons, List.getLastD_cons]

/-- The closing test of the source on the two coordinate lists agrees with the
closing test on the zipped point list. -/
theorem closed_iff (l1 l2 : List ℝ) (h : l1.length = l2.length) :
    (l1.head? = l1.getLast? ∧ l2.head? = l2.getLast?) ↔
      (l1.zip l2).head? = (l1.zip l2).getLast? := by
  match l1, l2 with
  | [], [] => simp
  | [], b :: l2 => simp at h
  | a :: l1, [] => simp at h
  | a :: l1, b :: l2 =>
    have h' : l1.length = l2.length := by simpa using h
    rw [zip_getLast?_cons l1 l2 a b h', getLast?_cons_eq a l1, getLast?_cons_eq b l2,
      List.zip_cons_cons]
    simp [Prod.ext_iff]

/-- On equal-length inputs the source's area function equals the point-level
restatement `areaP`. -/
theorem area_eq_areaP (lats lons : List ℝ) (h : lats.length = lons.length) :
    spherical_polygon_area_sq_m lats lons = areaP (lats.zip lons) := by
  have hzl : (lats.zip lons).length = lats.length := by
    rw [List.length_zip, h, min_self]
  by_cases h3 : lats.length < 3
  · rw [spherical_polygon_area_sq_m, areaP, if_pos h3, if_pos (by rwa [hzl])]
  · match lats, lons with
    | [], _ => simp at h3
    | a :: as, [] => simp at h
    | a :: as, b :: bs =>
      have h' : as.length = bs.length := by simpa using h
      rw [spherical_polygon_area_sq_m, areaP, if_neg h3, if_neg (by rwa [hzl])]
      by_cases hc : (a :: as).head? = (a :: as).getLast? ∧ (b :: bs).head? = (b :: bs).getLast?
      · rw [closeRing, if_pos hc, closeP,
          if_pos ((closed_iff (a :: as) (b :: bs) h).mp hc)]
        rw [crossSum_unwrap a as b bs h']
      · rw [closeRing, if_neg hc, closeP,
          if_neg (fun hz => hc ((closed_iff (a :: as) (b :: bs) h).mpr hz))]
        have happ : ((a :: as) ++ [a]).zip ((b :: bs) ++ [b])
            = (a :: as).zip (b :: bs) ++ [(a, b)] := by
          rw [List.zip_append h]; rfl
        have hlen2 : ((as ++ [a]).length : ℕ) = (bs ++ [b]).length := by
          simp [h']
        have hcs := crossSum_unwrap a (as ++ [a]) b (bs ++ [b]) hlen2
        have hhead : ((a :: as).zip (b :: bs)).headI = (a, b) := by
          rw [List.zip_cons_cons]; exact List.headI_cons
        rw [hhead, List.headI_cons, List.headI_cons, ← happ,
          show ((a :: as) ++ [a] : List ℝ) = a :: (as ++ [a]) from rfl,
          show ((b :: bs) ++ [b] : List ℝ) = b :: (bs ++ [b]) from rfl, hcs]

/-- The dateline adjustment is odd. -/
theorem adjDelta_neg (d : ℝ) : adjDelta (-d) = -adjDelta d := by
  unfold adjDelta
  split_ifs <;> linarith

theorem edgeTerm_symm (p q : ℝ × ℝ) : edgeTerm q p = -edgeTerm p q := by
  unfold edgeTerm
  rw [show p.2 - q.2 = -(q.2 - p.2) by ring, adjDelta_neg]
  simp only [toRad]
  ring

theorem edgeTerm_self (a : ℝ × ℝ) : edgeTerm a a = 0 := by
  unfold edgeTerm
  rw [sub_self, show adjDelta 0 = 0 by unfold adjDelta; norm_num]
  simp [toRad]

theorem adjSum_append_singleton :
    ∀ (ps : List (ℝ × ℝ)) (a b : ℝ × ℝ),
      adjSum (a :: (ps ++ [b])) = adjSum (a :: ps) + edgeTerm (ps.getLastD a) b := by
  intro ps
  induction ps with
  | nil => intro a b; simp [adjSum, List.getLastD]
  | cons c ps ih =>
      intro a b
      rw [show (a :: ((c :: ps) ++ [b])) = a :: c :: (ps ++ [b]) from rfl]
      rw [show adjSum (a :: c :: (ps ++ [b])) = edgeTerm a c + adjSum (c :: (ps ++ [b])) from rfl]
      rw [ih c b, List.getLastD_cons]
      rw [show adjSum (a :: c :: ps) = edgeTerm a c + adjSum (c :: ps) from rfl]
      ring

theorem adjSum_reverse : ∀ ps : List (ℝ × ℝ), adjSum ps.reverse = -adjSum ps := by
  intro ps
  induction ps with
  | nil => simp [adjSum]
  | cons a ps ih =>
      match ps, ih with
      | [], _ => simp [adjSum]
      | c :: ps, ih =>
        rw [List.reverse_cons]
        match hrev : (c :: ps).reverse with
        | [] => exact absurd (List.reverse_eq_nil_iff.mp hrev) (by simp)
        | r :: rs =>
          rw [show ((r :: rs) ++ [a] : List (ℝ × ℝ)) = r :: (rs ++ [a]) from rfl,
            adjSum_append_singleton rs r a, ← hrev, ih]
          have hlast : (c :: ps).reverse.getLast? = some c := by
            rw [List.getLast?_reverse]; rfl
          rw [hrev, getLast?_cons_eqP r rs] at hlast
          rw [show rs.getLastD r = c from by injection hlast,
            show adjSum (a :: c :: ps) = edgeTerm a c + adjSum (c :: ps) from rfl,
            edgeTerm_symm]
          ring

/-- Telescoping of the edge sum for rings visiting at most two distinct
points `p` and `q`. -/
theorem edgeTerm_phi (p q a b : ℝ × ℝ) (ha : a = p ∨ a = q) (hb : b = p ∨ b = q) :
    edgeTerm a b = phiPQ p q b - phiPQ p q a := by
  unfold phiPQ
  by_cases hqp : q = p
  · subst hqp
    have ha' : a = q := by tauto
    have hb' : b = q := by tauto
    rw [ha', hb', edgeTerm_self]
    simp
  · rcases ha with ha | ha <;> rcases hb with hb | hb <;> rw [ha, hb]
    · simp [edgeTerm_self]
    · rw [if_neg hqp, if_pos rfl]; ring
    · rw [if_pos rfl, if_neg hqp, edgeTerm_symm]; ring
    · rw [edgeTerm_self]; ring

theorem adjSum_two_point :
    ∀ (ps : List (ℝ × ℝ)) (a p q : ℝ × ℝ), (a = p ∨ a = q) → (∀ x ∈ ps, x = p ∨ x = q) →
      adjSum (a :: ps) = phiPQ p q (ps.getLastD a) - phiPQ p q a := by
  intro ps
  induction ps with
  | nil => intro a p q _ _; simp [adjSum]
  | cons c ps ih =>
      intro a p q ha hmem
      have hc : c = p ∨ c = q := hmem c (by simp)
      have hmem' : ∀ x ∈ ps, x = p ∨ x = q := fun x hx => hmem x (by simp [hx])
      rw [show adjSum (a :: c :: ps) = edgeTerm a c + adjSum (c :: ps) from rfl,
        ih c p q hc hmem', edgeTerm_phi p q a c ha hc, List.getLastD_cons]
      ring

/-- After the closing step, the first and last point agree. -/
theorem closeP_closed (ps : List (ℝ × ℝ)) (h : ps ≠ []) :
    (closeP ps).head? = (closeP ps).getLast? := by
  unfold closeP
  split_ifs with hc
  · exact hc
  · match ps, h with
    | x :: t, _ =>
      rw [List.headI_cons, List.getLast?_concat]
      rfl

theorem mem_closeP (ps : List (ℝ × ℝ)) (h : ps ≠ []) {x : ℝ × ℝ}
    (hx : x ∈ closeP ps) : x ∈ ps := by
  unfold closeP at hx
  split_ifs at hx with hc
  · exact hx
  · rcases List.mem_append.mp hx with hx | hx
    · exact hx
    · match ps, h with
      | y :: t, _ =>
        rw [List.headI_cons] at hx
        simp only [List.mem_singleton] at hx
        rw [hx]
        exact List.mem_cons_self y t

theorem closeP_ne_nil (ps : List (ℝ × ℝ)) (h : ps ≠ []) : closeP ps ≠ [] := by
  unfold closeP
  split_ifs with hc
  · exact h
  · simp

/-- C3: on equal-length latitude and longitude sequences whose vertices
comprise at most 2 distinct points, `spherical_polygon_area_sq_m` returns 0;
a list of fewer than 3 entries is covered because it has at most 2 distinct
vertices. -/
theorem spherical_area_two_distinct_points (lats lons : List ℝ) (p q : ℝ × ℝ)
    (hlen : lats.length = lons.length)
    (hpq : ∀ v ∈ lats.zip lons, v = p ∨ v = q) :
    spherical_polygon_area_sq_m lats lons = 0 := by
  rw [area_eq_areaP lats lons hlen]
  unfold areaP
  split_ifs with h3
  · rfl
  · have hne : lats.zip lons ≠ [] := by
      intro hz
      rw [hz] at h3
      simp at h3
    have hclosed := closeP_closed _ hne
    cases hcp : closeP (lats.zip lons) with
    | nil => exact absurd hcp (closeP_ne_nil _ hne)
    | cons c rest =>
      have hmem : ∀ x ∈ rest, x = p ∨ x = q := fun x hx =>
        hpq x (mem_closeP _ hne (by rw [hcp]; simp [hx]))
      have hcpq : c = p ∨ c = q := hpq c (mem_closeP _ hne (by rw [hcp]; simp))
      rw [hcp, getLast?_cons_eqP, List.head?_cons] at hclosed
      have hgl : rest.getLastD c = c := (Option.some.inj hclosed).symm
      rw [adjSum_two_point rest c p q hcpq hmem, hgl]
      simp

/-- Witness for C3 at the triangle repeating the two points (0,0) and (1,1). -/
theorem spherical_area_two_distinct_points_witness :
    (([(0 : ℝ), 1, 0].length = [(0 : ℝ), 1, 0].length) ∧
      (∀ v ∈ ([(0 : ℝ), 1, 0].zip [(0 : ℝ), 1, 0]),
        v = ((0 : ℝ), (0 : ℝ)) ∨ v = ((1 : ℝ), (1 : ℝ)))) ∧
      spherical_polygon_area_sq_m [(0 : ℝ), 1, 0] [(0 : ℝ), 1, 0] = 0 :=
  ⟨⟨rfl, by intro v hv; simp only [List.zip_cons_cons, List.zip_nil_right,
      List.mem_cons, List.not_mem_nil, or_false] at hv; tauto⟩,
    spherical_area_two_distinct_points [(0 : ℝ), 1, 0] [(0 : ℝ), 1, 0]
      ((0 : ℝ), (0 : ℝ)) ((1 : ℝ), (1 : ℝ)) rfl
      (by intro v hv; simp only [List.zip_cons_cons, List.zip_nil_right,
        List.mem_cons, List.not_mem_nil, or_false] at hv; tauto)⟩

theorem zip_reverse_eq : ∀ (l1 l2 : List ℝ), l1.length = l2.length →
    l1.reverse.zip l2.reverse = (l1.zip l2).reverse := by
  intro l1
  induction l1 with
  | nil =>
      intro l2 h
      have : l2 = [] := List.eq_nil_of_length_eq_zero h.symm
      subst this
      rfl
  | cons a t1 ih =>
      intro l2 h
      match l2 with
      | [] => simp at h
      | b :: t2 =>
        have h' : t1.length = t2.length := by simpa using h
        rw [List.reverse_cons, List.reverse_cons, List.zip_append (by simp [h']),
          ih t2 h']
        simp

theorem areaP_reverse (ps : List (ℝ × ℝ)) : areaP ps.reverse = areaP ps := by
  unfold areaP
  rw [List.length_reverse]
  split_ifs with h3
  · rfl
  · unfold closeP
    rw [List.head?_reverse, List.getLast?_reverse]
    by_cases hc : ps.head? = ps.getLast?
    · rw [if_pos hc.symm, if_pos hc, adjSum_reverse, abs_neg]
    · rw [if_neg (fun hh => hc hh.symm), if_neg hc]
      match ps with
      | [] => simp at h3
      | x :: t =>
        cases hrev : (x :: t).reverse with
        | nil => exact absurd (List.reverse_eq_nil_iff.mp hrev) (by simp)
        | cons r rs =>
          have hr : r = t.getLastD x := by
            have hh : (x :: t).reverse.head? = some (t.getLastD x) := by
              rw [List.head?_reverse, getLast?_cons_eqP]
            rw [hrev, List.head?_cons] at hh
            exact Option.some.inj hh
          have hlastrev : rs.getLastD r = x := by
            have h2 : (x :: t).reverse.getLast? = some x := by
              rw [List.getLast?_reverse, List.head?_cons]
            rw [hrev, getLast?_cons_eqP] at h2
            exact Option.some.inj h2
          have hsum : adjSum (r :: rs) = -adjSum (x :: t) := by
            rw [← hrev]
            exact adjSum_reverse (x :: t)
          rw [List.headI_cons, List.headI_cons,
            show ((r :: rs) ++ [r] : List (ℝ × ℝ)) = r :: (rs ++ [r]) from rfl,
            show ((x :: t) ++ [x] : List (ℝ × ℝ)) = x :: (t ++ [x]) from rfl,
            adjSum_append_singleton rs r r, hlastrev,
            adjSum_append_singleton t x x, hsum, hr, edgeTerm_symm (t.getLastD x) x,
            show -adjSum (x :: t) + -edgeTerm (t.getLastD x) x
              = -(adjSum (x :: t) + edgeTerm (t.getLastD x) x) from by ring,
            abs_neg]

/-- C4: reversing the vertex order of both coordinate lists leaves
`spherical_polygon_area_sq_m` unchanged. -/
theorem spherical_area_reverse (lats lons : List ℝ) (h : lats.length = lons.length) :
    spherical_polygon_area_sq_m lats.reverse lons.reverse
      = spherical_polygon_area_sq_m lats lons := by
  rw [area_eq_areaP lats lons h, area_eq_areaP lats.reverse lons.reverse (by simp [h]),
    zip_reverse_eq lats lons h, areaP_reverse]

/-- Witness for C4 at a concrete 3-vertex ring. -/
theorem spherical_area_reverse_witness :
    (([(0 : ℝ), 0, 0].length = [(0 : ℝ), 1, 2].length) ∧
      spherical_polygon_area_sq_m [(0 : ℝ), 0, 0].reverse [(0 : ℝ), 1, 2].reverse
        = spherical_polygon_area_sq_m [(0 : ℝ), 0, 0] [(0 : ℝ), 1, 2]) :=
  ⟨rfl, spherical_area_reverse [(0 : ℝ), 0, 0] [(0 : ℝ), 1, 2] rfl⟩

theorem areaP_close (ps : List (ℝ × ℝ)) (h : ps.head? ≠ ps.getLast?) :
    areaP (ps ++ [ps.headI]) = areaP ps := by
  match ps with
  | [] => exact absurd rfl h
  | [x] => exact absurd rfl h
  | [x, y] =>
      have hL : (([x, y] : List (ℝ × ℝ)) ++ [([x, y] : List (ℝ × ℝ)).headI]) = [x, y, x] := by
        rw [List.headI_cons]
        rfl
      rw [hL]
      have h1 : areaP [x, y, x] = 0 := by
        rw [areaP, if_neg (by simp), closeP, if_pos (by simp),
          show adjSum [x, y, x] = edgeTerm x y + (edgeTerm y x + 0) from rfl,
          edgeTerm_symm x y,
          show edgeTerm x y + (-edgeTerm x y + 0) = 0 from by ring]
        simp
      have h2 : areaP [x, y] = 0 := by
        rw [areaP, if_pos (by simp)]
      rw [h1, h2]
  | x :: y :: z :: t =>
      rw [List.headI_cons]
      have hclosed : ((x :: y :: z :: t) ++ [x]).head? = ((x :: y :: z :: t) ++ [x]).getLast? := by
        rw [List.getLast?_concat]
        rfl
      rw [areaP, areaP, if_neg (by simp), if_neg (by simp), closeP, closeP,
        if_pos hclosed, if_neg h, List.headI_cons]

/-- C5: when the first point differs from the last, explicitly appending a copy
of the first point gives the same area as the unclosed ring. -/
theorem spherical_area_close_invariant (lats lons : List ℝ)
    (hlen : lats.length = lons.length)
    (hopen : ¬(lats.head? = lats.getLast? ∧ lons.head? = lons.getLast?)) :
    spherical_polygon_area_sq_m (lats ++ [lats.headI]) (lons ++ [lons.headI])
      = spherical_polygon_area_sq_m lats lons := by
  match lats, lons with
  | [], [] => exact absurd ⟨rfl, rfl⟩ hopen
  | [], b :: bs => simp at hlen
  | a :: as, [] => simp at hlen
  | a :: as, b :: bs =>
    have hlen1 : ((a :: as) ++ [(a :: as).headI]).length
        = ((b :: bs) ++ [(b :: bs).headI]).length := by
      simp [show as.length = bs.length from by simpa using hlen]
    rw [area_eq_areaP _ _ hlen1, area_eq_areaP _ _ hlen]
    have happ : ((a :: as) ++ [(a :: as).headI]).zip ((b :: bs) ++ [(b :: bs).headI])
        = (a :: as).zip (b :: bs) ++ [((a :: as).zip (b :: bs)).headI] := by
      rw [List.headI_cons, List.headI_cons, List.zip_append hlen, List.zip_cons_cons,
        List.headI_cons]
      rfl
    rw [happ]
    exact areaP_close _ (fun hz => hopen ((closed_iff (a :: as) (b :: bs) hlen).mpr hz))

/-- Witness for C5 at a concrete open 3-vertex ring. -/
theorem spherical_area_close_invariant_witness :
    (([(0 : ℝ), 0, 1].length = [(0 : ℝ), 1, 1].length) ∧
      ¬(([(0 : ℝ), 0, 1].head? = [(0 : ℝ), 0, 1].getLast?) ∧
        ([(0 : ℝ), 1, 1].head? = [(0 : ℝ), 1, 1].getLast?))) ∧
      spherical_polygon_area_sq_m ([(0 : ℝ), 0, 1] ++ [([(0 : ℝ), 0, 1] : List ℝ).headI])
          ([(0 : ℝ), 1, 1] ++ [([(0 : ℝ), 1, 1] : List ℝ).headI])
        = spherical_polygon_area_sq_m [(0 : ℝ), 0, 1] [(0 : ℝ), 1, 1] :=
  ⟨⟨rfl, by norm_num⟩,
    spherical_area_close_invariant [(0 : ℝ), 0, 1] [(0 : ℝ), 1, 1] rfl (by norm_num)⟩

/-- C8: the area is always non-negative and is 0 for fewer than 3 points; the
embedding is a total function, so no list access can fail. -/
theorem spherical_area_nonneg (lats lons : List ℝ) :
    0 ≤ spherical_polygon_area_sq_m lats lons ∧
      (lats.length < 3 → spherical_polygon_area_sq_m lats lons = 0) := by
  constructor
  · rw [spherical_polygon_area_sq_m]
    split_ifs
    · exact le_refl 0
    · positivity
  · intro h
    rw [spherical_polygon_area_sq_m, if_pos h]

/-- Witness for C8 at a single-point input, discharging the degeneracy
hypothesis there. -/
theorem spherical_area_nonneg_witness :
    (0 ≤ spherical_polygon_area_sq_m [(0 : ℝ)] [(0 : ℝ)] ∧
      ([(0 : ℝ)].length < 3 → spherical_polygon_area_sq_m [(0 : ℝ)] [(0 : ℝ)] = 0)) ∧
      spherical_polygon_area_sq_m [(0 : ℝ)] [(0 : ℝ)] = 0 :=
  ⟨spherical_area_nonneg [(0 : ℝ)] [(0 : ℝ)],
    (spherical_area_nonneg [(0 : ℝ)] [(0 : ℝ)]).2 (by norm_num)⟩

/-- C9: the empty input, a violation of the length precondition, yields the
pair (0, 0) instead of a failure. -/
theorem centroid_latlon_empty : centroid_latlon [] [] = (0, 0) := rfl

theorem crossSum_eq_specRingSum : ∀ (las los : List ℝ), crossSum las los = specRingSum las los := by
  intro las
  induction las with
  | nil => intro los; rfl
  | cons a tl ih =>
      intro los
      match tl with
      | [] => rfl
      | a2 :: tl2 =>
        match los with
        | [] => rfl
        | [l] => rfl
        | l :: l2 :: ls =>
          rw [show crossSum (a :: a2 :: tl2) (l :: l2 :: ls)
              = (l2 - l) * (Real.sin a + Real.sin a2) + crossSum (a2 :: tl2) (l2 :: ls) from rfl,
            show specRingSum (a :: a2 :: tl2) (l :: l2 :: ls)
              = (l2 - l) * (Real.sin a2 + Real.sin a) + specRingSum (a2 :: tl2) (l2 :: ls) from rfl,
            ih (l2 :: ls)]
          ring

/-- C1: on equal-length inputs with at least 3 vertices the source area
function computes exactly the formula of the claim: close the ring if needed,
unwrap, and take half the absolute line-integral sum times 6371008.8 squared. -/
theorem spherical_area_formula (lats lons : List ℝ)
    (hlen : lats.length = lons.length) (h3 : 3 ≤ lats.length) :
    spherical_polygon_area_sq_m lats lons = areaSpecFormula lats lons := by
  simp only [spherical_polygon_area_sq_m, areaSpecFormula, closeRing, EARTH_RADIUS]
  rw [if_neg (by omega), crossSum_eq_specRingSum]

/-- Witness for C1 at a concrete closed 3-vertex ring. -/
theorem spherical_area_formula_witness :
    (([(0 : ℝ), 0, 0].length = [(0 : ℝ), 1, 0].length) ∧ 3 ≤ [(0 : ℝ), 0, 0].length) ∧
      spherical_polygon_area_sq_m [(0 : ℝ), 0, 0] [(0 : ℝ), 1, 0]
        = areaSpecFormula [(0 : ℝ), 0, 0] [(0 : ℝ), 1, 0] :=
  ⟨⟨rfl, by norm_num⟩,
    spherical_area_formula [(0 : ℝ), 0, 0] [(0 : ℝ), 1, 0] rfl (by norm_num)⟩

theorem unwrapAux_getD : ∀ (ls : List ℝ) (prev o : ℝ) (i : ℕ), i + 1 < (o :: ls).length →
    (prev :: unwrapAux prev o ls).getD (i + 1) 0 =
      (prev :: unwrapAux prev o ls).getD i 0
        + adjDelta ((o :: ls).getD (i + 1) 0 - (o :: ls).getD i 0) := by
  intro ls
  induction ls with
  | nil => intro prev o i h; simp at h
  | cons l ls ih =>
      intro prev o i h
      match i with
      | 0 => rfl
      | j + 1 =>
          have h' : j + 1 < (l :: ls).length := by
            simp only [List.length_cons] at h ⊢
            omega
          exact ih (prev + adjDelta (l - o)) l j h'

/-- C2: for a non-empty input, the Normalizer returns a sequence of the same
length, anchored at the same first element, in which each element is the
previous output plus the dateline-adjusted delta of the corresponding input
neighbours; a length-1 input is returned unchanged. -/
theorem unwrap_lons_Normalizer_spec (lons : List ℝ) (h : lons ≠ []) :
    (unwrap_lons lons).length = lons.length ∧
      (unwrap_lons lons).headI = lons.headI ∧
      (∀ i : ℕ, i + 1 < lons.length →
        (unwrap_lons lons).getD (i + 1) 0 =
          (unwrap_lons lons).getD i 0
            + adjDelta (lons.getD (i + 1) 0 - lons.getD i 0)) ∧
      (lons.length = 1 → unwrap_lons lons = lons) := by
  match lons, h with
  | l :: ls, _ =>
    rw [unwrap_lons_cons]
    refine ⟨by simp [length_unwrapAux], by simp, ?_, ?_⟩
    · intro i hi
      exact unwrapAux_getD ls l l i hi
    · intro h1
      have hls : ls = [] := by
        simp only [List.length_cons] at h1
        exact List.eq_nil_of_length_eq_zero (by omega)
      subst hls
      rfl

/-- Witness for C2 at the dateline-jumping input [0, 200]. -/
theorem unwrap_lons_Normalizer_spec_witness :
    ([(0 : ℝ), 200] ≠ ([] : List ℝ)) ∧
      ((unwrap_lons [(0 : ℝ), 200]).length = [(0 : ℝ), 200].length ∧
        (unwrap_lons [(0 : ℝ), 200]).headI = [(0 : ℝ), 200].headI ∧
        (∀ i : ℕ, i + 1 < [(0 : ℝ), 200].length →
          (unwrap_lons [(0 : ℝ), 200]).getD (i + 1) 0 =
            (unwrap_lons [(0 : ℝ), 200]).getD i 0
              + adjDelta ([(0 : ℝ), 200].getD (i + 1) 0 - [(0 : ℝ), 200].getD i 0)) ∧
        ([(0 : ℝ), 200].length = 1 → unwrap_lons [(0 : ℝ), 200] = [(0 : ℝ), 200])) :=
  ⟨by simp, unwrap_lons_Normalizer_spec [(0 : ℝ), 200] (by simp)⟩

/-- C6 counterexample: the input [0, 600] (a delta above 540) is changed again
by a second pass of the Normalizer, so idempotence fails for arbitrary real
longitude sequences. -/
theorem unwrap_lons_not_idempotent :
    unwrap_lons (unwrap_lons [(0 : ℝ), 600]) ≠ unwrap_lons [(0 : ℝ), 600] := by
  have h1 : unwrap_lons [(0 : ℝ), 600] = [0, 240] := by
    rw [unwrap_lons_cons]
    simp only [unwrapAux, adjDelta]
    rw [if_pos (by norm_num : ((600 : ℝ) - 0) > 180)]
    norm_num
  have h2 : unwrap_lons [(0 : ℝ), 240] = [0, -120] := by
    rw [unwrap_lons_cons]
    simp only [unwrapAux, adjDelta]
    rw [if_pos (by norm_num : ((240 : ℝ) - 0) > 180)]
    norm_num
  rw [h1, h2]
  intro hcontra
  rw [List.cons.injEq, List.cons.injEq] at hcontra
  norm_num at hcontra

theorem adjDelta_bounds (d : ℝ) (h1 : -360 ≤ d) (h2 : d ≤ 360) :
    -180 ≤ adjDelta d ∧ adjDelta d ≤ 180 := by
  unfold adjDelta
  split_ifs <;> constructor <;> linarith

theorem unwrapAux_fixed : ∀ (ls : List ℝ) (a : ℝ),
    List.Chain (fun x y => -180 ≤ y - x ∧ y - x ≤ 180) a ls → unwrapAux a a ls = ls := by
  intro ls
  induction ls with
  | nil => intro a _; rfl
  | cons l ls ih =>
      intro a hch
      rw [List.chain_cons] at hch
      have hadj : adjDelta (l - a) = l - a := by
        unfold adjDelta
        rw [if_neg (by linarith [hch.1.2]), if_neg (by linarith [hch.1.1])]
      rw [show unwrapAux a a (l :: ls)
          = (a + adjDelta (l - a)) :: unwrapAux (a + adjDelta (l - a)) l ls from rfl,
        hadj, show a + (l - a) = l from by ring, ih l hch.2]

theorem unwrapAux_chain : ∀ (ls : List ℝ) (o prev : ℝ),
    List.Chain (fun x y => -360 ≤ y - x ∧ y - x ≤ 360) o ls →
    List.Chain (fun x y => -180 ≤ y - x ∧ y - x ≤ 180) prev (unwrapAux prev o ls) := by
  intro ls
  induction ls with
  | nil => intro o prev _; exact List.Chain.nil
  | cons l ls ih =>
      intro o prev hch
      rw [List.chain_cons] at hch
      rw [show unwrapAux prev o (l :: ls)
          = (prev + adjDelta (l - o)) :: unwrapAux (prev + adjDelta (l - o)) l ls from rfl,
        List.chain_cons]
      have hb := adjDelta_bounds (l - o) hch.1.1 hch.1.2
      exact ⟨⟨by linarith [hb.1], by linarith [hb.2]⟩, ih l _ hch.2⟩

theorem chain_of_range : ∀ (ls : List ℝ) (a : ℝ), -180 ≤ a → a ≤ 180 →
    (∀ x ∈ ls, -180 ≤ x ∧ x ≤ 180) →
    List.Chain (fun x y => -360 ≤ y - x ∧ y - x ≤ 360) a ls := by
  intro ls
  induction ls with
  | nil => intro a _ _ _; exact List.Chain.nil
  | cons l ls ih =>
      intro a ha1 ha2 hmem
      have hl := hmem l (by simp)
      rw [List.chain_cons]
      exact ⟨⟨by linarith [hl.1], by linarith [hl.2]⟩,
        ih l hl.1 hl.2 (fun x hx => hmem x (by simp [hx]))⟩

/-- C6 amended: the Normalizer is idempotent on sequences of longitudes lying
in the standard range [-180, 180]. -/
theorem unwrap_lons_idempotent_in_range (lons : List ℝ)
    (h : ∀ x ∈ lons, -180 ≤ x ∧ x ≤ 180) :
    unwrap_lons (unwrap_lons lons) = unwrap_lons lons := by
  match lons with
  | [] => rfl
  | b :: bs =>
    rw [unwrap_lons_cons]
    have hb := h b (by simp)
    have hchain := unwrapAux_chain bs b b
      (chain_of_range bs b hb.1 hb.2 (fun x hx => h x (by simp [hx])))
    rw [unwrap_lons_cons, unwrapAux_fixed (unwrapAux b b bs) b hchain]

/-- Witness for the amended C6 at a ring crossing the antimeridian. -/
theorem unwrap_lons_idempotent_in_range_witness :
    (∀ x ∈ [(170 : ℝ), -170], -180 ≤ x ∧ x ≤ 180) ∧
      unwrap_lons (unwrap_lons [(170 : ℝ), -170]) = unwrap_lons [(170 : ℝ), -170] :=
  ⟨by intro x hx; rcases List.mem_cons.mp hx with h | h
      · rw [h]; norm_num
      · rw [List.mem_singleton.mp h]; norm_num,
    unwrap_lons_idempotent_in_range _
      (by intro x hx; rcases List.mem_cons.mp hx with h | h
          · rw [h]; norm_num
          · rw [List.mem_singleton.mp h]; norm_num)⟩

theorem adjDelta_shift (d : ℝ) : ∃ e : ℤ, adjDelta d = d + 360 * (e : ℝ) := by
  unfold adjDelta
  split_ifs
  · exact ⟨-1, by push_cast; ring⟩
  · exact ⟨1, by push_cast; ring⟩
  · exact ⟨0, by push_cast; ring⟩

theorem unwrapAux_shift : ∀ (ls : List ℝ) (o prev : ℝ) (k0 : ℤ),
    prev = o + 360 * (k0 : ℝ) →
    ∀ i : ℕ, i < ls.length →
      ∃ k : ℤ, (unwrapAux prev o ls).getD i 0 = ls.getD i 0 + 360 * (k : ℝ) := by
  intro ls
  induction ls with
  | nil => intro o prev k0 hp i hi; simp at hi
  | cons l ls ih =>
      intro o prev k0 hp i hi
      obtain ⟨e, he⟩ := adjDelta_shift (l - o)
      match i with
      | 0 =>
          refine ⟨k0 + e, ?_⟩
          rw [show (unwrapAux prev o (l :: ls)).getD 0 0 = prev + adjDelta (l - o) from rfl,
            show (l :: ls).getD 0 0 = l from rfl, he, hp]
          push_cast
          ring
      | j + 1 =>
          have hj : j < ls.length := by
            simp only [List.length_cons] at hi
            omega
          have hprev : prev + adjDelta (l - o) = l + 360 * ((k0 + e : ℤ) : ℝ) := by
            rw [he, hp]
            push_cast
            ring
          exact ih l (prev + adjDelta (l - o)) (k0 + e) hprev j hj

/-- C10: each output of the Normalizer differs from the corresponding input by
an exact integer multiple of 360 degrees. -/
theorem unwrap_lons_shift_360 (lons : List ℝ) (h : lons ≠ []) (i : ℕ)
    (hi : i < lons.length) :
    ∃ k : ℤ, (unwrap_lons lons).getD i 0 = lons.getD i 0 + 360 * (k : ℝ) := by
  match lons, h with
  | l :: ls, _ =>
    rw [unwrap_lons_cons]
    match i with
    | 0 => exact ⟨0, by norm_num⟩
    | j + 1 =>
        have hj : j < ls.length := by
          simp only [List.length_cons] at hi
          omega
        exact unwrapAux_shift ls l l 0 (by norm_num) j hj

/-- Witness for C10 at the input [0, 200], index 1. -/
theorem unwrap_lons_shift_360_witness :
    (([(0 : ℝ), 200] ≠ ([] : List ℝ)) ∧ 1 < [(0 : ℝ), 200].length) ∧
      ∃ k : ℤ, (unwrap_lons [(0 : ℝ), 200]).getD 1 0
        = [(0 : ℝ), 200].getD 1 0 + 360 * (k : ℝ) :=
  ⟨⟨by simp, by norm_num⟩, unwrap_lons_shift_360 [(0 : ℝ), 200] (by simp) 1 (by norm_num)⟩

/-- C7: on non-empty equal-length inputs, `centroid_latlon` computes exactly
the claim's formula: average the unit-sphere Cartesian coordinates of all
vertices as given and convert back with atan2 and hypot. -/
theorem centroid_latlon_formula (lats lons : List ℝ) (h : lats ≠ [])
    (hlen : lats.length = lons.length) :
    centroid_latlon lats lons = centroidSpecFormula lats lons := by
  match lats, h with
  | a :: as, _ =>
    have hnat : ((a :: as).zip lons).length = (a :: as).length := by
      rw [List.length_zip, hlen, min_self]
    simp only [centroid_latlon, centroidSpecFormula]
    rw [hnat]

/-- Witness for C7 at a single vertex. -/
theorem centroid_latlon_formula_witness :
    (([(0 : ℝ)] ≠ ([] : List ℝ)) ∧ [(0 : ℝ)].length = [(0 : ℝ)].length) ∧
      centroid_latlon [(0 : ℝ)] [(0 : ℝ)] = centroidSpecFormula [(0 : ℝ)] [(0 : ℝ)] :=
  ⟨⟨by simp, rfl⟩, centroid_latlon_formula [(0 : ℝ)] [(0 : ℝ)] (by simp) rfl⟩

end KmlArea
